import Mathlib

/-!
Shallow embedding of the geneticPlayground core (src/scripts/genetic.js and
src/scripts/genetic_functions.js, current versions) in Lean 4.

Modelling conventions:
- JS numbers are modelled as exact rationals; machine floating point is idealised.
- A thrown JS Error is an `Except.error` carrying the thrown message; reading a
  property of `undefined` is the `typeError` failure.
- `Math.random()` is modelled by threading an explicit list of draws through the
  functions that consume randomness; a computation that would need more draws
  than supplied returns `none` (the source loops until enough draws arrive).
- A JS function that ends without a return statement yields `undefined`,
  modelled as `Unit` in the result position.
- An omitted optional boolean argument (JS `undefined`, which is falsy in the
  conditionals of the source) is modelled as `false`.
- Array accesses that JS would answer with `undefined` (index out of range,
  for draws outside `[0,1)` that make `findIndex` return `-1`) make the whole
  sampled result `none`; such draws cannot be produced by `Math.random()`.
-/

/-- A failure raised by the engine: either a thrown `Error` with its message,
or a TypeError from reading a property of `undefined`. -/
inductive GAError where
  | jsError (msg : String)
  | typeError
  deriving DecidableEq

/-- An evaluated individual: the caller-defined value together with the numeric
`fitness` field added by `evaluateFitness` (the spread `{...individual, fitness}`). -/
structure Individual (V : Type) where
  value : V
  fitness : ℚ
  deriving DecidableEq

/-- `Math.max(...l)` over a list of numbers: `none` models the `-Infinity`
result on an empty argument list. -/
def listMaxQ : List ℚ → Option ℚ
  | [] => none
  | x :: xs =>
    match listMaxQ xs with
    | none => some x
    | some m => some (max x m)

/-- `Math.min(...l)` over a list of numbers: `none` models the `Infinity`
result on an empty argument list. -/
def listMinQ : List ℚ → Option ℚ
  | [] => none
  | x :: xs =>
    match listMinQ xs with
    | none => some x
    | some m => some (min x m)

/-- `Array.prototype.findIndex` as an optional index. -/
def findIdxQ (p : ℚ → Bool) : List ℚ → Option ℕ
  | [] => none
  | w :: ws => if p w then some 0 else (findIdxQ p ws).map (· + 1)

/-- `weights.findIndex((f) => f > random_number)` from `randomUniqueIndices`:
the first index whose weight exceeds the draw, `-1` when there is none. -/
def jsFindIndexGt (weights : List ℚ) (r : ℚ) : ℤ :=
  match findIdxQ (fun w => r < w) weights with
  | some i => (i : ℤ)
  | none => -1

/-- JS array indexing `l[i]` with a possibly negative index: `undefined`
(`none`) outside the range. -/
def jsGetInt (l : List α) (i : ℤ) : Option α :=
  if 0 ≤ i then l.get? i.toNat else none

/-- Collects `l.map f` when every entry is defined; `none` as soon as one
entry is `undefined`. -/
def mapOption (f : α → Option β) : List α → Option (List β)
  | [] => some []
  | x :: xs =>
    match f x, mapOption f xs with
    | some y, some ys => some (y :: ys)
    | _, _ => none

/-- `randomPopulation(n, creation_function)` from genetic_functions.js:
`Array.from({length: n}, () => creation_function())`. -/
def randomPopulation (n : ℕ) (creation_function : Unit → V) : List V :=
  (List.range n).map fun _ => creation_function ()

/-- `evaluateFitness(population, fitness_function, target_value)`:
annotates every individual with its computed fitness, in order. -/
def evaluateFitness (population : List V) (fitness_function : V → W → ℚ)
    (target_value : W) : List (Individual V) :=
  population.map fun individual => ⟨individual, fitness_function individual target_value⟩

/-- `mutate(population, mutation_function, mutation_rate)`: applies the
mutation function to every member, in order. -/
def mutate (population : List V) (mutation_function : V → ℚ → V)
    (mutation_rate : ℚ) : List V :=
  population.map fun individual => mutation_function individual mutation_rate

/-- `fittestIndividual(population, ascending)`: index of the maximum
(`ascending` truthy) or minimum (falsy) fitness via `indexOf`, then the
individual at that index.  On an empty population `Math.max()` is `-Infinity`,
`indexOf` answers `-1` and `population[-1]` is `undefined` (`none`); no error
is thrown on any input. -/
def fittestIndividual (population : List (Individual V)) (ascending : Bool) :
    Except GAError (Option (Individual V)) :=
  let fitness := population.map (·.fitness)
  match if ascending then listMaxQ fitness else listMinQ fitness with
  | none => .ok none
  | some m => .ok (population.get? (fitness.indexOf m))

/-- Step 2 of `relativeCumulativeFitness`: if any value is negative, add the
absolute value of the minimum to all values. -/
def shiftNonNegative (fitness : List ℚ) : List ℚ :=
  if fitness.any fun value => value < 0 then
    match listMinQ fitness with
    | none => fitness
    | some m => fitness.map fun value => value + |m|
  else fitness

/-- Step 3 of `relativeCumulativeFitness`: if any value is zero, add 1 to all
values. -/
def avoidZero (fitness : List ℚ) : List ℚ :=
  if fitness.any fun value => value = 0 then fitness.map (· + 1) else fitness

/-- Step 4 of `relativeCumulativeFitness`: when `ascending` is falsy, replace
every value by its reciprocal. -/
def invertIfDescending (ascending : Bool) (fitness : List ℚ) : List ℚ :=
  if !ascending then fitness.map fun value => 1 / value else fitness

/-- The cumulative-sum reduce of `relativeCumulativeFitness`:
`individual + (cumulative[index - 1] || 0)` appended per entry. -/
def cumAux (acc : ℚ) : List ℚ → List ℚ
  | [] => []
  | x :: xs => (acc + x) :: cumAux (acc + x) xs

/-- `relativeCumulativeFitness(population, ascending)` from
genetic_functions.js, steps in source order: extract fitness, shift negatives,
avoid zeros, invert for descending, normalise by the total, accumulate. -/
def relativeCumulativeFitness (population : List (Individual V))
    (ascending : Bool) : List ℚ :=
  let fitness :=
    invertIfDescending ascending (avoidZero (shiftNonNegative (population.map (·.fitness))))
  let total_fitness := fitness.foldl (· + ·) 0
  let relative_fitness := fitness.map (· / total_fitness)
  cumAux 0 relative_fitness

/-- The while loop of `randomUniqueIndices`: consume draws until `n` unique
indices are collected; `none` when the supplied draws run out first. -/
def ruiLoop (weights : List ℚ) (n : ℕ) :
    List ℚ → List ℤ → Option (List ℤ × List ℚ)
  | draws, indices =>
    if n ≤ indices.length then some (indices, draws)
    else
      match draws with
      | [] => none
      | r :: rest =>
        let index := jsFindIndexGt weights r
        if index ∈ indices then ruiLoop weights n rest indices
        else ruiLoop weights n rest (indices ++ [index])

/-- `randomUniqueIndices(weights, n)` from genetic_functions.js: validates the
requested count, then loops drawing random numbers. -/
def randomUniqueIndices (weights : List ℚ) (n : ℤ) (draws : List ℚ) :
    Except GAError (Option (List ℤ × List ℚ)) :=
  if n < 0 ∨ (weights.length : ℤ) < n then
    .error (.jsError "n must be between 0 and the population size")
  else .ok (ruiLoop weights n.toNat draws [])

/-- `weightedSampleWithoutReplacement(population, n, ascending)` from
genetic_functions.js: validates `n`, derives the cumulative table, draws `n`
unique indices and returns the individuals at those indices. -/
def weightedSampleWithoutReplacement (population : List (Individual V)) (n : ℤ)
    (ascending : Bool) (draws : List ℚ) :
    Except GAError (Option (List (Individual V) × List ℚ)) :=
  if (population.length : ℤ) < n then
    .error (.jsError "n must be less than or equal to the population size")
  else
    let weights := relativeCumulativeFitness population ascending
    match randomUniqueIndices weights n draws with
    | .error e => .error e
    | .ok none => .ok none
    | .ok (some (indices, rest)) =>
      match mapOption (fun index => jsGetInt population index) indices with
      | some sampled => .ok (some (sampled, rest))
      | none => .ok none

/-- The for loop of `crossover`: each child samples two unique parents by
weighted sampling and applies the crossover function. -/
def crossoverLoop (population : List (Individual V))
    (crossover_function : Individual V → Individual V → V) (ascending : Bool) :
    ℕ → List V → List ℚ → Except GAError (Option (List V × List ℚ))
  | 0, acc, draws => .ok (some (acc, draws))
  | i + 1, acc, draws =>
    match weightedSampleWithoutReplacement population 2 ascending draws with
    | .error e => .error e
    | .ok none => .ok none
    | .ok (some (parents, rest)) =>
      match parents with
      | parent1 :: parent2 :: _ =>
        crossoverLoop population crossover_function ascending i
          (acc ++ [crossover_function parent1 parent2]) rest
      | _ => .ok none

/-- `crossover(population, n, crossover_function, ascending)` from
genetic_functions.js: throws when the mating pool has fewer than two members,
before any child is produced; otherwise produces `n` children. -/
def crossover (population : List (Individual V)) (n : ℤ)
    (crossover_function : Individual V → Individual V → V) (ascending : Bool)
    (draws : List ℚ) : Except GAError (Option (List V × List ℚ)) :=
  if population.length < 2 then
    .error (.jsError "population size must be greater than 1")
  else crossoverLoop population crossover_function ascending n.toNat [] draws

/-- The stop check of genetic.js line 54:
`fittestIndividual(population).fitness === stop_value` with the `ascending`
argument omitted.  Reading `.fitness` of `undefined` is a TypeError. -/
def stopCheck (population : List (Individual V)) (stop_value : Option ℚ) :
    Except GAError Bool :=
  match fittestIndividual population false with
  | .error e => .error e
  | .ok none => .error .typeError
  | .ok (some ind) => .ok (decide (stop_value = some ind.fitness))

/-- The configuration record destructured by `geneticAlgorithm`. -/
structure GAConfig where
  population_size : ℕ
  generations : ℕ
  mutation_rate : ℚ
  survival_rate : ℚ
  reproduction_rate : ℚ

/-- The model object handed to `geneticAlgorithm`.  `stop_function` is the
stop predicate declared and documented by models/model.js; `stop_value` and
`target_value` are the fields genetic.js actually destructures (`stop_value`
is `undefined`, i.e. `none`, on models that only implement the documented
interface).  `W` is the caller-defined type of `target_value`. -/
structure GAModel (V W : Type) where
  creation_function : Unit → V
  fitness_function : V → W → ℚ
  crossover_function : Individual V → Individual V → V
  mutation_function : V → ℚ → V
  stop_function : ℚ → Bool
  stop_value : Option ℚ
  target_value : W

/-- The generation loop of `geneticAlgorithm` (genetic.js lines 47 to 74),
by recursion on the remaining generation count: evaluate, append to history,
stop check, select survivors, cross over, mutate.  The result pairs the
history with a flag recording whether the loop exited through the stop check. -/
def gaLoop (fitness_function : V → W → ℚ)
    (crossover_function : Individual V → Individual V → V)
    (mutation_function : V → ℚ → V) (stop_value : Option ℚ) (target_value : W)
    (cfg : GAConfig) :
    ℕ → List V → List (List (Individual V)) → List ℚ →
    Except GAError (Option (List (List (Individual V)) × Bool))
  | 0, _population, history, _draws => .ok (some (history, false))
  | generations_left + 1, population, history, draws =>
    let evaluated := evaluateFitness population fitness_function target_value
    let history2 := history ++ [evaluated]
    match stopCheck evaluated stop_value with
    | .error e => .error e
    | .ok true => .ok (some (history2, true))
    | .ok false =>
      let number_of_survivors : ℤ := ⌊(evaluated.length : ℚ) * cfg.survival_rate⌋
      match weightedSampleWithoutReplacement evaluated number_of_survivors false draws with
      | .error e => .error e
      | .ok none => .ok none
      | .ok (some (mating_pool, draws2)) =>
        let number_of_children : ℤ := ⌊(evaluated.length : ℚ) * cfg.reproduction_rate⌋
        match crossover mating_pool number_of_children crossover_function false draws2 with
        | .error e => .error e
        | .ok none => .ok none
        | .ok (some (next_generation, draws3)) =>
          let mutated := mutate next_generation mutation_function cfg.mutation_rate
          gaLoop fitness_function crossover_function mutation_function stop_value
            target_value cfg generations_left mutated history2 draws3

/-- The internal run of `geneticAlgorithm`: destructures exactly the model
fields genetic.js destructures (note: not `stop_function`), builds the initial
population and runs the loop, exposing the final history and exit mode. -/
def geneticAlgorithmRun (model : GAModel V W) (cfg : GAConfig) (draws : List ℚ) :
    Except GAError (Option (List (List (Individual V)) × Bool)) :=
  gaLoop model.fitness_function model.crossover_function model.mutation_function
    model.stop_value model.target_value cfg cfg.generations
    (randomPopulation cfg.population_size model.creation_function) [] draws

/-- `geneticAlgorithm(model, logging_function, configuration)` from genetic.js:
the function body ends without a return statement, so a completed run yields
`undefined`, modelled by `Unit`. -/
def geneticAlgorithm (model : GAModel V W)
    (logging_function : List (List (Individual V)) → Unit) (cfg : GAConfig)
    (draws : List ℚ) : Except GAError (Option Unit) :=
  (geneticAlgorithmRun model cfg draws).map (Option.map fun _ => ())

/-- The error component of a result: `some e` when the call threw `e`. -/
def errOf : Except GAError α → Option GAError
  | .error e => some e
  | .ok _ => none

/-- Position `i` holds the numerically maximal fitness, and strictly beats
every earlier position (first-occurrence tie break). -/
def IsFirstMaxIndex (population : List (Individual V)) (i : Fin population.length) : Prop :=
  (∀ j : Fin population.length, (population.get j).fitness ≤ (population.get i).fitness) ∧
  ∀ j : Fin population.length, (j : ℕ) < (i : ℕ) →
    (population.get j).fitness < (population.get i).fitness

/-- Position `i` holds the numerically minimal fitness, and strictly beats
every earlier position (first-occurrence tie break). -/
def IsFirstMinIndex (population : List (Individual V)) (i : Fin population.length) : Prop :=
  (∀ j : Fin population.length, (population.get i).fitness ≤ (population.get j).fitness) ∧
  ∀ j : Fin population.length, (j : ℕ) < (i : ℕ) →
    (population.get i).fitness < (population.get j).fitness

/-- Concrete two-individual population used by evaluation witnesses. -/
def popW5 : List (Individual Unit) := [⟨(), 2⟩, ⟨(), 1⟩]

/-- Concrete three-individual population used by evaluation witnesses. -/
def popW10 : List (Individual Unit) := [⟨(), 3⟩, ⟨(), 1⟩, ⟨(), 1⟩]

/-- Concrete singleton population used by the sampling witness. -/
def popW4 : List (Individual Unit) := [⟨(), 1⟩]

/-- A concrete model whose stop value matches the constant zero fitness, so a
run stops at generation zero without consuming randomness. -/
def c1Model : GAModel Unit Unit :=
  GAModel.mk (fun _ => ()) (fun _ _ => 0) (fun _ _ => ()) (fun v _ => v)
    (fun _ => false) (some 0) ()

/-- One individual, one generation. -/
def c1Config : GAConfig := GAConfig.mk 1 1 0 0 0

/-- A concrete model whose stop predicate demands an immediate stop
(`stop_function` always true) while `stop_value` is undefined, as on every
model that implements only the documented model interface. -/
def c2Model : GAModel Unit Unit :=
  GAModel.mk (fun _ => ()) (fun _ _ => 0) (fun _ _ => ()) (fun v _ => v)
    (fun _ => true) none ()

/-- Two individuals, two generations, full survival, one-to-one reproduction. -/
def c2Config : GAConfig := GAConfig.mk 2 2 0 1 1

/-- Enough unit-interval draws for two full generations of the `c2Config`
run: each generation consumes two draws for the mating pool and four for the
two crossover children. -/
def c2Draws : List ℚ :=
  [1/4, 3/4, 1/4, 3/4, 1/4, 3/4, 1/4, 3/4, 1/4, 3/4, 1/4, 3/4]

theorem listMaxQ_eq_none (l : List ℚ) : listMaxQ l = none ↔ l = [] := by
  cases l with
  | nil => simp [listMaxQ]
  | cons x xs => cases h : listMaxQ xs <;> simp [listMaxQ, h]

theorem listMinQ_eq_none (l : List ℚ) : listMinQ l = none ↔ l = [] := by
  cases l with
  | nil => simp [listMinQ]
  | cons x xs => cases h : listMinQ xs <;> simp [listMinQ, h]

theorem listMaxQ_mem {l : List ℚ} {m : ℚ} (h : listMaxQ l = some m) : m ∈ l := by
  induction l generalizing m with
  | nil => simp [listMaxQ] at h
  | cons x xs ih =>
    cases hx : listMaxQ xs with
    | none =>
      simp [listMaxQ, hx] at h
      simp [← h]
    | some m2 =>
      simp [listMaxQ, hx] at h
      rw [← h]
      rcases max_choice x m2 with hc | hc <;> rw [hc]
      · exact List.mem_cons_self x xs
      · exact List.mem_cons_of_mem x (ih hx)

theorem listMinQ_mem {l : List ℚ} {m : ℚ} (h : listMinQ l = some m) : m ∈ l := by
  induction l generalizing m with
  | nil => simp [listMinQ] at h
  | cons x xs ih =>
    cases hx : listMinQ xs with
    | none =>
      simp [listMinQ, hx] at h
      simp [← h]
    | some m2 =>
      simp [listMinQ, hx] at h
      rw [← h]
      rcases min_choice x m2 with hc | hc <;> rw [hc]
      · exact List.mem_cons_self x xs
      · exact List.mem_cons_of_mem x (ih hx)

theorem le_listMaxQ {l : List ℚ} {m : ℚ} (h : listMaxQ l = some m) :
    ∀ x ∈ l, x ≤ m := by
  induction l generalizing m with
  | nil => simp [listMaxQ] at h
  | cons a xs ih =>
    cases hx : listMaxQ xs with
    | none =>
      have hxe : xs = [] := (listMaxQ_eq_none xs).1 hx
      subst hxe
      simp [listMaxQ] at h
      simp [← h]
    | some m2 =>
      simp [listMaxQ, hx] at h
      intro y hy
      rcases List.mem_cons.1 hy with rfl | hmem
      · exact le_trans (le_max_left y m2) (le_of_eq h)
      · exact le_trans (le_trans (ih hx y hmem) (le_max_right a m2)) (le_of_eq h)

theorem listMinQ_le {l : List ℚ} {m : ℚ} (h : listMinQ l = some m) :
    ∀ x ∈ l, m ≤ x := by
  induction l generalizing m with
  | nil => simp [listMinQ] at h
  | cons a xs ih =>
    cases hx : listMinQ xs with
    | none =>
      have hxe : xs = [] := (listMinQ_eq_none xs).1 hx
      subst hxe
      simp [listMinQ] at h
      simp [← h]
    | some m2 =>
      simp [listMinQ, hx] at h
      intro y hy
      rcases List.mem_cons.1 hy with rfl | hmem
      · exact le_trans (le_of_eq h.symm) (min_le_left y m2)
      · exact le_trans (le_of_eq h.symm) (le_trans (min_le_right a m2) (ih hx y hmem))

theorem get_ne_of_lt_indexOf {l : List ℚ} {a : ℚ} {j : ℕ} (hj : j < l.length)
    (hlt : j < l.indexOf a) : l.get ⟨j, hj⟩ ≠ a := by
  induction l generalizing j with
  | nil => simp at hj
  | cons x xs ih =>
    by_cases hx : x = a
    · subst hx
      rw [List.indexOf_cons_self] at hlt
      exact absurd hlt (Nat.not_lt_zero j)
    · cases j with
      | zero => simpa using hx
      | succ j2 =>
        rw [List.indexOf_cons_ne _ hx] at hlt
        have hl2 := Nat.lt_of_succ_lt_succ hlt
        simpa using ih (Nat.lt_of_succ_lt_succ hj) hl2

theorem fittest_max_spec (V : Type) (pop : List (Individual V)) (h : pop ≠ []) :
    ∃ i : Fin pop.length,
      fittestIndividual pop true = .ok (some (pop.get i)) ∧ IsFirstMaxIndex pop i := by
  have hf : pop.map (·.fitness) ≠ [] := by simpa using h
  obtain ⟨m, hm⟩ : ∃ m, listMaxQ (pop.map (·.fitness)) = some m := by
    cases hx : listMaxQ (pop.map (·.fitness)) with
    | none => exact absurd ((listMaxQ_eq_none _).1 hx) hf
    | some m => exact ⟨m, rfl⟩
  have hmem : m ∈ pop.map (·.fitness) := listMaxQ_mem hm
  have hidx : (pop.map (·.fitness)).indexOf m < (pop.map (·.fitness)).length :=
    List.indexOf_lt_length.2 hmem
  have hlen : (pop.map (·.fitness)).length = pop.length := List.length_map _ _
  have hidx2 : (pop.map (·.fitness)).indexOf m < pop.length := hlen ▸ hidx
  refine ⟨⟨(pop.map (·.fitness)).indexOf m, hidx2⟩, ?_, ?_, ?_⟩
  · simp only [fittestIndividual, if_true, hm]
    rw [List.get?_eq_get hidx2]
  · intro j
    have hjmem : (pop.get j).fitness ∈ pop.map (·.fitness) :=
      List.mem_map_of_mem _ (pop.get_mem j.val j.isLt)
    have hle := le_listMaxQ hm _ hjmem
    have hgm : (pop.get ⟨(pop.map (·.fitness)).indexOf m, hidx2⟩).fitness = m := by
      have := List.indexOf_get (a := m) (l := pop.map (·.fitness)) hidx
      rw [List.get_map] at this
      exact this
    rw [hgm]
    exact hle
  · intro j hj
    have hgm : (pop.get ⟨(pop.map (·.fitness)).indexOf m, hidx2⟩).fitness = m := by
      have := List.indexOf_get (a := m) (l := pop.map (·.fitness)) hidx
      rw [List.get_map] at this
      exact this
    have hjlen : (j : ℕ) < (pop.map (·.fitness)).length := by
      rw [hlen]
      exact j.isLt
    have hne : (pop.map (·.fitness)).get ⟨j, hjlen⟩ ≠ m :=
      get_ne_of_lt_indexOf hjlen hj
    rw [List.get_map] at hne
    have hjmem : (pop.get j).fitness ∈ pop.map (·.fitness) :=
      List.mem_map_of_mem _ (pop.get_mem j.val j.isLt)
    have hle := le_listMaxQ hm _ hjmem
    rw [hgm]
    have : pop.get ⟨(j : ℕ), j.isLt⟩ = pop.get j := by congr
    rw [this] at hne
    exact lt_of_le_of_ne hle hne

theorem fittest_min_spec (V : Type) (pop : List (Individual V)) (h : pop ≠ []) :
    ∃ i : Fin pop.length,
      fittestIndividual pop false = .ok (some (pop.get i)) ∧ IsFirstMinIndex pop i := by
  have hf : pop.map (·.fitness) ≠ [] := by simpa using h
  obtain ⟨m, hm⟩ : ∃ m, listMinQ (pop.map (·.fitness)) = some m := by
    cases hx : listMinQ (pop.map (·.fitness)) with
    | none => exact absurd ((listMinQ_eq_none _).1 hx) hf
    | some m => exact ⟨m, rfl⟩
  have hmem : m ∈ pop.map (·.fitness) := listMinQ_mem hm
  have hidx : (pop.map (·.fitness)).indexOf m < (pop.map (·.fitness)).length :=
    List.indexOf_lt_length.2 hmem
  have hlen : (pop.map (·.fitness)).length = pop.length := List.length_map _ _
  have hidx2 : (pop.map (·.fitness)).indexOf m < pop.length := hlen ▸ hidx
  refine ⟨⟨(pop.map (·.fitness)).indexOf m, hidx2⟩, ?_, ?_, ?_⟩
  · simp only [fittestIndividual, Bool.false_eq_true, if_false, hm]
    rw [List.get?_eq_get hidx2]
  · intro j
    have hjmem : (pop.get j).fitness ∈ pop.map (·.fitness) :=
      List.mem_map_of_mem _ (pop.get_mem j.val j.isLt)
    have hle := listMinQ_le hm _ hjmem
    have hgm : (pop.get ⟨(pop.map (·.fitness)).indexOf m, hidx2⟩).fitness = m := by
      have := List.indexOf_get (a := m) (l := pop.map (·.fitness)) hidx
      rw [List.get_map] at this
      exact this
    rw [hgm]
    exact hle
  · intro j hj
    have hgm : (pop.get ⟨(pop.map (·.fitness)).indexOf m, hidx2⟩).fitness = m := by
      have := List.indexOf_get (a := m) (l := pop.map (·.fitness)) hidx
      rw [List.get_map] at this
      exact this
    have hjlen : (j : ℕ) < (pop.map (·.fitness)).length := by
      rw [hlen]
      exact j.isLt
    have hne : (pop.map (·.fitness)).get ⟨j, hjlen⟩ ≠ m :=
      get_ne_of_lt_indexOf hjlen hj
    rw [List.get_map] at hne
    have hjmem : (pop.get j).fitness ∈ pop.map (·.fitness) :=
      List.mem_map_of_mem _ (pop.get_mem j.val j.isLt)
    have hle := listMinQ_le hm _ hjmem
    rw [hgm]
    have : pop.get ⟨(j : ℕ), j.isLt⟩ = pop.get j := by congr
    rw [this] at hne
    exact lt_of_le_of_ne hle (Ne.symm hne)

/-- C5: for every non-empty evaluated population, `fittestIndividual` with
`ascending = true` returns the individual with the numerically maximum fitness
and with `ascending = false` the individual with the numerically minimum
fitness, ties broken by first occurrence in population order. -/
theorem fittestIndividual_extremal (V : Type) (pop : List (Individual V)) (h : pop ≠ []) :
    (∃ i : Fin pop.length,
      fittestIndividual pop true = .ok (some (pop.get i)) ∧ IsFirstMaxIndex pop i) ∧
    ∃ i : Fin pop.length,
      fittestIndividual pop false = .ok (some (pop.get i)) ∧ IsFirstMinIndex pop i :=
  ⟨fittest_max_spec V pop h, fittest_min_spec V pop h⟩

/-- Witness for C5 on a concrete two-individual population. -/
theorem fittestIndividual_extremal_witness :
    popW5 ≠ [] ∧
    ((∃ i : Fin popW5.length,
      fittestIndividual popW5 true = .ok (some (popW5.get i)) ∧ IsFirstMaxIndex popW5 i) ∧
    ∃ i : Fin popW5.length,
      fittestIndividual popW5 false = .ok (some (popW5.get i)) ∧ IsFirstMinIndex popW5 i) :=
  ⟨by simp [popW5], fittestIndividual_extremal Unit popW5 (by simp [popW5])⟩

/-- C6 counterexample: `fittestIndividual` on the empty population does not
fail; `Math.max()` is `-Infinity`, `indexOf` answers `-1`, and the function
returns `population[-1]`, i.e. `undefined`, as a normal value. -/
theorem fittestIndividual_empty_ok :
    fittestIndividual ([] : List (Individual Unit)) true = .ok none ∧
    errOf (fittestIndividual ([] : List (Individual Unit)) true) = none :=
  ⟨rfl, rfl⟩

/-- C6 amended: `fittestIndividual` applied to a population of zero
individuals returns `undefined` as a normal return and raises no error. -/
theorem fittestIndividual_empty_no_error (V : Type) (ascending : Bool) :
    fittestIndividual ([] : List (Individual V)) ascending = .ok none := by
  cases ascending <;> rfl

/-- C7: for every requested offspring count, including zero and negative
counts, and every crossover function, `crossover` on a mating pool with fewer
than two individuals fails with the insufficient-population error before
producing any child. -/
theorem crossover_insufficient_population (V : Type) (pop : List (Individual V))
    (n : ℤ) (f : Individual V → Individual V → V) (asc : Bool) (draws : List ℚ)
    (h : pop.length < 2) :
    crossover pop n f asc draws =
      .error (.jsError "population size must be greater than 1") := by
  simp [crossover, h]

/-- Witness for C7 on the empty mating pool with offspring count zero. -/
theorem crossover_insufficient_population_witness :
    ([] : List (Individual Unit)).length < 2 ∧
    crossover ([] : List (Individual Unit)) 0 (fun _ _ => ()) true [] =
      .error (.jsError "population size must be greater than 1") :=
  ⟨by simp, crossover_insufficient_population Unit [] 0 (fun _ _ => ()) true [] (by simp)⟩

theorem shiftNonNegative_length (fs : List ℚ) :
    (shiftNonNegative fs).length = fs.length := by
  rw [shiftNonNegative]
  split
  · cases h : listMinQ fs <;> simp
  · rfl

theorem avoidZero_length (fs : List ℚ) : (avoidZero fs).length = fs.length := by
  rw [avoidZero]
  split <;> simp

theorem invertIfDescending_length (asc : Bool) (fs : List ℚ) :
    (invertIfDescending asc fs).length = fs.length := by
  rw [invertIfDescending]
  split <;> simp

theorem cumAux_length (a : ℚ) (l : List ℚ) : (cumAux a l).length = l.length := by
  induction l generalizing a with
  | nil => rfl
  | cons x xs ih => simp [cumAux, ih]

theorem shiftNonNegative_nonneg (fs : List ℚ) :
    ∀ x ∈ shiftNonNegative fs, 0 ≤ x := by
  rw [shiftNonNegative]
  split
  · rename_i hany
    have ⟨v, hv, hvneg⟩ : ∃ v ∈ fs, v < 0 := by simpa using hany
    cases hm : listMinQ fs with
    | none =>
      have : fs = [] := (listMinQ_eq_none fs).1 hm
      subst this
      simp at hv
    | some m =>
      have hmle := listMinQ_le hm
      have hmneg : m < 0 := lt_of_le_of_lt (hmle v hv) hvneg
      intro x hx
      obtain ⟨y, hy, rfl⟩ := List.mem_map.1 hx
      rw [abs_of_neg hmneg]
      have := hmle y hy
      linarith
  · rename_i hany
    intro x hx
    have : ¬ x < 0 := by
      intro hneg
      exact hany (by simpa using ⟨x, hx, hneg⟩)
    linarith

theorem avoidZero_pos (fs : List ℚ) (h : ∀ x ∈ fs, 0 ≤ x) :
    ∀ x ∈ avoidZero fs, 0 < x := by
  rw [avoidZero]
  split
  · intro x hx
    obtain ⟨y, hy, rfl⟩ := List.mem_map.1 hx
    have := h y hy
    linarith
  · rename_i hany
    intro x hx
    have hne : ¬ x = 0 := by
      intro h0
      exact hany (by simpa using h0 ▸ hx)
    exact lt_of_le_of_ne (h x hx) (Ne.symm hne)

theorem invertIfDescending_pos (asc : Bool) (fs : List ℚ) (h : ∀ x ∈ fs, 0 < x) :
    ∀ x ∈ invertIfDescending asc fs, 0 < x := by
  rw [invertIfDescending]
  split
  · intro x hx
    obtain ⟨y, hy, rfl⟩ := List.mem_map.1 hx
    exact div_pos one_pos (h y hy)
  · exact h

theorem foldl_add_eq_sum (l : List ℚ) : ∀ a : ℚ, l.foldl (· + ·) a = a + l.sum := by
  induction l with
  | nil => intro a; simp
  | cons x xs ih =>
    intro a
    simp only [List.foldl_cons, List.sum_cons, ih]
    ring

theorem cumAux_getLast (a : ℚ) (l : List ℚ) (h : l ≠ []) :
    (cumAux a l).getLast? = some (a + l.sum) := by
  induction l generalizing a with
  | nil => exact absurd rfl h
  | cons x xs ih =>
    cases xs with
    | nil => simp [cumAux]
    | cons y ys =>
      have : cumAux a (x :: y :: ys) = (a + x) :: cumAux (a + x) (y :: ys) := rfl
      rw [this]
      have hcons : cumAux (a + x) (y :: ys) = ((a + x) + y) :: cumAux ((a + x) + y) ys := rfl
      rw [hcons, List.getLast?_cons_cons, ← hcons, ih (a + x) (by simp)]
      simp only [List.sum_cons]
      ring_nf

theorem cumAux_chain (l : List ℚ) (h : ∀ x ∈ l, 0 ≤ x) :
    ∀ a : ℚ, List.Chain' (· ≤ ·) (cumAux a l) := by
  induction l with
  | nil => intro a; simp [cumAux]
  | cons x xs ih =>
    intro a
    have hxs : ∀ y ∈ xs, 0 ≤ y := fun y hy => h y (List.mem_cons_of_mem x hy)
    have hchain := ih hxs (a + x)
    rw [show cumAux a (x :: xs) = (a + x) :: cumAux (a + x) xs from rfl]
    rw [List.chain'_cons']
    refine ⟨?_, hchain⟩
    intro b hb
    cases xs with
    | nil => simp [cumAux] at hb
    | cons y ys =>
      rw [show cumAux (a + x) (y :: ys) = ((a + x) + y) :: cumAux ((a + x) + y) ys from rfl] at hb
      simp only [List.head?_cons, Option.mem_def, Option.some.injEq] at hb
      have hy : 0 ≤ y := hxs y (List.mem_cons_self y ys)
      linarith [hb]

theorem map_div_sum (l : List ℚ) (c : ℚ) : (l.map (· / c)).sum = l.sum / c := by
  induction l with
  | nil => simp
  | cons x xs ih => simp [ih, add_div]

theorem rcf_adjusted_pos (V : Type) (pop : List (Individual V)) (asc : Bool) :
    ∀ x ∈ invertIfDescending asc (avoidZero (shiftNonNegative (pop.map (·.fitness)))), 0 < x :=
  invertIfDescending_pos asc _ (avoidZero_pos _ (shiftNonNegative_nonneg _))

theorem rcf_adjusted_length (V : Type) (pop : List (Individual V)) (asc : Bool) :
    (invertIfDescending asc (avoidZero (shiftNonNegative (pop.map (·.fitness))))).length =
      pop.length := by
  rw [invertIfDescending_length, avoidZero_length, shiftNonNegative_length, List.length_map]

theorem rcf_eq_cumAux (V : Type) (pop : List (Individual V)) (asc : Bool) :
    relativeCumulativeFitness pop asc =
      cumAux 0 ((invertIfDescending asc (avoidZero (shiftNonNegative (pop.map (·.fitness))))).map
        (· / (invertIfDescending asc (avoidZero (shiftNonNegative (pop.map (·.fitness))))).sum)) := by
  have h0 : relativeCumulativeFitness pop asc =
      cumAux 0 ((invertIfDescending asc (avoidZero (shiftNonNegative (pop.map (·.fitness))))).map
        (· / (invertIfDescending asc (avoidZero (shiftNonNegative (pop.map (·.fitness))))).foldl
          (· + ·) 0)) := rfl
  rw [h0, foldl_add_eq_sum, zero_add]

theorem rcf_length (V : Type) (pop : List (Individual V)) (asc : Bool) :
    (relativeCumulativeFitness pop asc).length = pop.length := by
  rw [rcf_eq_cumAux, cumAux_length, List.length_map, rcf_adjusted_length]

theorem rcf_props (V : Type) (pop : List (Individual V)) (asc : Bool) (h : pop ≠ []) :
    (relativeCumulativeFitness pop asc).length = pop.length ∧
    List.Chain' (· ≤ ·) (relativeCumulativeFitness pop asc) ∧
    (relativeCumulativeFitness pop asc).getLast? = some 1 := by
  have hpos := rcf_adjusted_pos V pop asc
  have hlen := rcf_adjusted_length V pop asc
  have hne : invertIfDescending asc (avoidZero (shiftNonNegative (pop.map (·.fitness)))) ≠ [] := by
    intro he
    rw [he] at hlen
    exact h (List.length_eq_zero.1 hlen.symm)
  have hsum : 0 < (invertIfDescending asc (avoidZero (shiftNonNegative (pop.map (·.fitness))))).sum :=
    List.sum_pos _ hpos hne
  refine ⟨rcf_length V pop asc, ?_, ?_⟩
  · rw [rcf_eq_cumAux]
    apply cumAux_chain
    intro x hx
    obtain ⟨y, hy, rfl⟩ := List.mem_map.1 hx
    exact le_of_lt (div_pos (hpos y hy) hsum)
  · rw [rcf_eq_cumAux, cumAux_getLast _ _ (by simpa using hne), map_div_sum,
      div_self (ne_of_gt hsum), zero_add]

/-- C3: for every non-empty evaluated population, the cumulative fitness table
has the population length, is non-decreasing, and its final entry is exactly 1
in the exact-rational model. -/
theorem relativeCumulativeFitness_table (V : Type) (pop : List (Individual V))
    (asc : Bool) (h : pop ≠ []) :
    (relativeCumulativeFitness pop asc).length = pop.length ∧
    List.Pairwise (· ≤ ·) (relativeCumulativeFitness pop asc) ∧
    (relativeCumulativeFitness pop asc).getLast? = some 1 := by
  obtain ⟨h1, h2, h3⟩ := rcf_props V pop asc h
  exact ⟨h1, List.chain'_iff_pairwise.1 h2, h3⟩

/-- Witness for C3 on a concrete two-individual population. -/
theorem relativeCumulativeFitness_table_witness :
    popW5 ≠ [] ∧
    ((relativeCumulativeFitness popW5 true).length = popW5.length ∧
    List.Pairwise (· ≤ ·) (relativeCumulativeFitness popW5 true) ∧
    (relativeCumulativeFitness popW5 true).getLast? = some 1) :=
  ⟨by simp [popW5], relativeCumulativeFitness_table Unit popW5 true (by simp [popW5])⟩

theorem listMinQ_replicate (c : ℚ) : ∀ n : ℕ, 0 < n →
    listMinQ (List.replicate n c) = some c := by
  intro n
  induction n with
  | zero => intro h; exact absurd h (lt_irrefl 0)
  | succ k ih =>
    intro _
    cases k with
    | zero => rfl
    | succ k2 =>
      rw [List.replicate_succ, show listMinQ (c :: List.replicate (k2 + 1) c) =
        match listMinQ (List.replicate (k2 + 1) c) with
        | none => some c
        | some m => some (min c m) from rfl, ih (Nat.succ_pos k2)]
      simp

theorem shiftNonNegative_replicate (n : ℕ) (c : ℚ) (hn : 0 < n) :
    shiftNonNegative (List.replicate n c) =
      List.replicate n (if c < 0 then 0 else c) := by
  by_cases hc : c < 0
  · have hany : (List.replicate n c).any (fun value => value < 0) = true := by
      simp only [List.any_eq_true, decide_eq_true_eq]
      exact ⟨c, List.mem_replicate.2 ⟨Nat.pos_iff_ne_zero.1 hn, rfl⟩, hc⟩
    rw [shiftNonNegative, if_pos hany, listMinQ_replicate c n hn]
    simp only [List.map_replicate]
    rw [if_pos hc, abs_of_neg hc]
    congr 1
    ring
  · have hany : (List.replicate n c).any (fun value => value < 0) = false := by
      simp only [List.any_eq_false, decide_eq_true_eq]
      intro x hx
      rw [List.eq_of_mem_replicate hx]
      exact hc
    rw [shiftNonNegative, if_neg (by simp [hany]), if_neg hc]

theorem avoidZero_replicate (n : ℕ) (c : ℚ) (hn : 0 < n) :
    avoidZero (List.replicate n c) = List.replicate n (if c = 0 then 1 else c) := by
  by_cases hc : c = 0
  · have hany : (List.replicate n c).any (fun value => value = 0) = true := by
      simp only [List.any_eq_true, decide_eq_true_eq]
      exact ⟨c, List.mem_replicate.2 ⟨Nat.pos_iff_ne_zero.1 hn, rfl⟩, hc⟩
    rw [avoidZero, if_pos hany]
    simp only [List.map_replicate]
    rw [if_pos hc, hc, zero_add]
  · have hany : (List.replicate n c).any (fun value => value = 0) = false := by
      simp only [List.any_eq_false, decide_eq_true_eq]
      intro x hx
      rw [List.eq_of_mem_replicate hx]
      exact hc
    rw [avoidZero, if_neg (by simp [hany]), if_neg hc]

theorem invertIfDescending_replicate (asc : Bool) (n : ℕ) (c : ℚ) :
    invertIfDescending asc (List.replicate n c) =
      List.replicate n (if asc then c else 1 / c) := by
  cases asc
  · simp [invertIfDescending]
  · simp [invertIfDescending]

theorem cumAux_replicate (v : ℚ) : ∀ (n : ℕ) (a : ℚ),
    cumAux a (List.replicate n v) = (List.range n).map fun i : ℕ => a + ((i : ℚ) + 1) * v := by
  intro n
  induction n with
  | zero => intro a; simp [cumAux]
  | succ k ih =>
    intro a
    rw [List.replicate_succ,
      show cumAux a (v :: List.replicate k v) = (a + v) :: cumAux (a + v) (List.replicate k v)
        from rfl,
      ih, List.range_succ_eq_map, List.map_cons, List.map_map]
    congr 1
    · push_cast
      ring
    · apply List.map_congr_left
      intro i _
      simp only [Function.comp_apply]
      push_cast
      ring

/-- C9: when every individual carries the same fitness value, the cumulative
table is the uniform staircase 1 over n, 2 over n, up to 1, for either value
of the direction flag. -/
theorem relativeCumulativeFitness_uniform (V : Type) (pop : List (Individual V))
    (asc : Bool) (c : ℚ) (h : pop ≠ []) (hall : ∀ ind ∈ pop, ind.fitness = c) :
    relativeCumulativeFitness pop asc =
      (List.range pop.length).map fun i : ℕ => ((i : ℚ) + 1) / pop.length := by
  have hn : 0 < pop.length := List.length_pos.2 h
  have hmap : pop.map (·.fitness) = List.replicate pop.length c := by
    have := List.eq_replicate_length (a := c) (l := pop.map (·.fitness))
    rw [List.length_map] at this
    exact this.2 fun b hb => by
      obtain ⟨y, hy, rfl⟩ := List.mem_map.1 hb
      exact hall y hy
  set d1 : ℚ := if c < 0 then 0 else c with hd1
  set d2 : ℚ := if d1 = 0 then 1 else d1 with hd2
  set d3 : ℚ := if asc then d2 else 1 / d2 with hd3
  have hd2pos : 0 < d2 := by
    rw [hd2, hd1]
    by_cases hc : c < 0
    · simp [hc]
    · by_cases hc0 : c = 0
      · simp [hc0]
      · have : ¬ (if c < 0 then (0 : ℚ) else c) = 0 := by simpa [hc] using hc0
        rw [if_neg this, if_neg hc]
        push_neg at hc
        exact lt_of_le_of_ne hc (Ne.symm hc0)
  have hd3pos : 0 < d3 := by
    rw [hd3]
    cases asc
    · simpa using div_pos one_pos hd2pos
    · simpa using hd2pos
  have hstage : invertIfDescending asc (avoidZero (shiftNonNegative (pop.map (·.fitness)))) =
      List.replicate pop.length d3 := by
    rw [hmap, shiftNonNegative_replicate _ _ hn, ← hd1, avoidZero_replicate _ _ hn, ← hd2,
      invertIfDescending_replicate, ← hd3]
  have hsum : (List.replicate pop.length d3).sum = (pop.length : ℚ) * d3 := by
    rw [List.sum_replicate, nsmul_eq_mul]
  rw [rcf_eq_cumAux, hstage, hsum, List.map_replicate, cumAux_replicate]
  apply List.map_congr_left
  intro i _
  have hd3ne : d3 ≠ 0 := ne_of_gt hd3pos
  have hlenne : (pop.length : ℚ) ≠ 0 :=
    Nat.cast_ne_zero.2 (Nat.pos_iff_ne_zero.1 hn)
  rw [zero_add]
  field_simp
  ring

/-- Witness for C9 on a concrete population with equal fitness values. -/
theorem relativeCumulativeFitness_uniform_witness :
    popW10.tail ≠ [] ∧ (∀ ind ∈ popW10.tail, ind.fitness = 1) ∧
    relativeCumulativeFitness popW10.tail false =
      (List.range popW10.tail.length).map fun i : ℕ => ((i : ℚ) + 1) / popW10.tail.length :=
  ⟨by simp [popW10], by simp [popW10],
    relativeCumulativeFitness_uniform Unit popW10.tail false 1 (by simp [popW10])
      (by simp [popW10])⟩

/-- C8: `weightedSampleWithoutReplacement` throws exactly when the requested
sample size is negative or exceeds the population size, and the thrown error
is always one of the two sample-size messages; for an in-range size no error
is possible, whatever the draws. -/
theorem weightedSample_error_characterisation (V : Type) (pop : List (Individual V))
    (n : ℤ) (asc : Bool) (draws : List ℚ) :
    errOf (weightedSampleWithoutReplacement pop n asc draws) =
      if (pop.length : ℤ) < n then
        some (.jsError "n must be less than or equal to the population size")
      else if n < 0 then
        some (.jsError "n must be between 0 and the population size")
      else none := by
  by_cases h1 : (pop.length : ℤ) < n
  · rw [weightedSampleWithoutReplacement, if_pos h1, if_pos h1]
    rfl
  · by_cases h2 : n < 0
    · have hguard : n < 0 ∨ ((relativeCumulativeFitness pop asc).length : ℤ) < n :=
        Or.inl h2
      simp only [weightedSampleWithoutReplacement, if_neg h1, randomUniqueIndices,
        if_pos hguard, if_pos h2]
      rfl
    · have hguard : ¬ (n < 0 ∨ ((relativeCumulativeFitness pop asc).length : ℤ) < n) := by
        rw [rcf_length]
        push_neg
        exact ⟨le_of_not_lt h2, le_of_not_lt h1⟩
      simp only [weightedSampleWithoutReplacement, if_neg h1, randomUniqueIndices,
        if_neg hguard, if_neg h2]
      cases hr : ruiLoop (relativeCumulativeFitness pop asc) n.toNat draws [] with
      | none => simp [errOf]
      | some p =>
        obtain ⟨indices, rest⟩ := p
        cases hm : mapOption (fun index => jsGetInt pop index) indices <;> simp [errOf, hm]

theorem findIdxQ_lt_length (p : ℚ → Bool) :
    ∀ (l : List ℚ) (i : ℕ), findIdxQ p l = some i → i < l.length := by
  intro l
  induction l with
  | nil => intro i h; simp [findIdxQ] at h
  | cons w ws ih =>
    intro i h
    rw [findIdxQ] at h
    by_cases hp : p w
    · rw [if_pos hp] at h
      injection h with h
      rw [← h]
      exact Nat.succ_pos _
    · rw [if_neg hp] at h
      obtain ⟨j, hj, rfl⟩ := Option.map_eq_some'.1 h
      exact Nat.succ_lt_succ (ih j hj)

theorem findIdxQ_isSome (p : ℚ → Bool) :
    ∀ l : List ℚ, (∃ w ∈ l, p w = true) → ∃ i, findIdxQ p l = some i := by
  intro l
  induction l with
  | nil => intro h; simp at h
  | cons w ws ih =>
    intro h
    by_cases hp : p w
    · exact ⟨0, by rw [findIdxQ, if_pos hp]⟩
    · obtain ⟨v, hv, hpv⟩ := h
      rcases List.mem_cons.1 hv with rfl | hmem
      · exact absurd hpv hp
      · obtain ⟨j, hj⟩ := ih ⟨v, hmem, hpv⟩
        exact ⟨j + 1, by rw [findIdxQ, if_neg hp, hj]; rfl⟩

theorem jsFindIndexGt_range (weights : List ℚ) (r : ℚ)
    (hlast : weights.getLast? = some 1) (hr : r < 1) :
    0 ≤ jsFindIndexGt weights r ∧ jsFindIndexGt weights r < (weights.length : ℤ) := by
  have hmem : (1 : ℚ) ∈ weights := by
    obtain ⟨hh, hx⟩ := List.mem_getLast?_eq_getLast (l := weights) (x := 1) (by rw [hlast]; rfl)
    rw [hx]
    exact List.getLast_mem hh
  obtain ⟨i, hi⟩ :=
    findIdxQ_isSome (fun w => decide (r < w)) weights ⟨1, hmem, by simpa using hr⟩
  have hred : jsFindIndexGt weights r = (i : ℤ) := by rw [jsFindIndexGt, hi]
  rw [hred]
  exact ⟨Int.ofNat_nonneg i, by exact_mod_cast findIdxQ_lt_length _ weights i hi⟩

theorem ruiLoop_nil (weights : List ℚ) (n : ℕ) (indices : List ℤ) :
    ruiLoop weights n [] indices =
      if n ≤ indices.length then some (indices, ([] : List ℚ)) else none := by
  rw [ruiLoop]

theorem ruiLoop_cons (weights : List ℚ) (n : ℕ) (r : ℚ) (rest : List ℚ) (indices : List ℤ) :
    ruiLoop weights n (r :: rest) indices =
      if n ≤ indices.length then some (indices, r :: rest)
      else if jsFindIndexGt weights r ∈ indices then ruiLoop weights n rest indices
      else ruiLoop weights n rest (indices ++ [jsFindIndexGt weights r]) := by
  rw [ruiLoop]

theorem ruiLoop_spec (weights : List ℚ) (hlast : weights.getLast? = some 1) (n : ℕ) :
    ∀ (draws : List ℚ) (indices out : List ℤ) (rest : List ℚ),
      (∀ r ∈ draws, 0 ≤ r ∧ r < 1) →
      indices.Nodup → (∀ i ∈ indices, 0 ≤ i ∧ i < (weights.length : ℤ)) →
      indices.length ≤ n →
      ruiLoop weights n draws indices = some (out, rest) →
      out.length = n ∧ out.Nodup ∧ ∀ i ∈ out, 0 ≤ i ∧ i < (weights.length : ℤ) := by
  intro draws
  induction draws with
  | nil =>
    intro indices out rest _ hnd hbd hlen hrun
    rw [ruiLoop_nil] at hrun
    by_cases hc : n ≤ indices.length
    · rw [if_pos hc] at hrun
      simp only [Option.some.injEq, Prod.mk.injEq] at hrun
      obtain ⟨rfl, rfl⟩ := hrun
      exact ⟨le_antisymm hlen hc, hnd, hbd⟩
    · rw [if_neg hc] at hrun
      exact absurd hrun (by simp)
  | cons r rest2 ih =>
    intro indices out rest hdraws hnd hbd hlen hrun
    rw [ruiLoop_cons] at hrun
    by_cases hc : n ≤ indices.length
    · rw [if_pos hc] at hrun
      simp only [Option.some.injEq, Prod.mk.injEq] at hrun
      obtain ⟨rfl, rfl⟩ := hrun
      exact ⟨le_antisymm hlen hc, hnd, hbd⟩
    · rw [if_neg hc] at hrun
      have hdrest : ∀ x ∈ rest2, 0 ≤ x ∧ x < 1 :=
        fun x hx => hdraws x (List.mem_cons_of_mem r hx)
      have hrng := jsFindIndexGt_range weights r hlast (hdraws r (List.mem_cons_self r rest2)).2
      by_cases hmem2 : jsFindIndexGt weights r ∈ indices
      · rw [if_pos hmem2] at hrun
        exact ih indices out rest hdrest hnd hbd hlen hrun
      · rw [if_neg hmem2] at hrun
        have hnd2 : (indices ++ [jsFindIndexGt weights r]).Nodup := by
          simp [List.nodup_append, hnd, hmem2]
        have hbd2 : ∀ i ∈ indices ++ [jsFindIndexGt weights r],
            0 ≤ i ∧ i < (weights.length : ℤ) := by
          intro i hi
          rcases List.mem_append.1 hi with hi | hi
          · exact hbd i hi
          · rw [List.mem_singleton.1 hi]
            exact hrng
        have hlen2 : (indices ++ [jsFindIndexGt weights r]).length ≤ n := by
          rw [List.length_append, List.length_singleton]
          omega
        exact ih _ out rest hdrest hnd2 hbd2 hlen2 hrun

theorem mapOption_map (f : α → Option β) :
    ∀ (l : List α) (out : List β), mapOption f l = some out → l.map f = out.map some := by
  intro l
  induction l with
  | nil =>
    intro out h
    rw [mapOption] at h
    injection h with h
    rw [← h]
    rfl
  | cons x xs ih =>
    intro out h
    rw [mapOption] at h
    cases hfx : f x with
    | none => rw [hfx] at h; exact absurd h (by simp)
    | some y =>
      cases hxs : mapOption f xs with
      | none => rw [hfx, hxs] at h; exact absurd h (by simp)
      | some ys =>
        rw [hfx, hxs] at h
        injection h with h
        rw [← h, List.map_cons, List.map_cons, hfx, ih ys hxs]

/-- C4: whenever `weightedSampleWithoutReplacement` completes on draws from
the unit interval, it returns exactly `n` individuals, read off a duplicate
free list of in-range positions of the input population, in the order those
positions were accepted. -/
theorem weightedSample_spec (V : Type) (pop : List (Individual V)) (n : ℤ) (asc : Bool)
    (draws : List ℚ) (hpop : pop ≠ []) (hdraws : ∀ r ∈ draws, 0 ≤ r ∧ r < 1)
    (out : List (Individual V)) (rest : List ℚ)
    (h : weightedSampleWithoutReplacement pop n asc draws = .ok (some (out, rest))) :
    out.length = n.toNat ∧
    ∃ idxs : List ℤ, idxs.Nodup ∧ (∀ i ∈ idxs, 0 ≤ i ∧ i < (pop.length : ℤ)) ∧
      idxs.map (fun i => pop.get? i.toNat) = out.map some := by
  by_cases h1 : (pop.length : ℤ) < n
  · rw [weightedSampleWithoutReplacement, if_pos h1] at h
    exact absurd h (by simp)
  · simp only [weightedSampleWithoutReplacement, if_neg h1] at h
    by_cases h2 : n < 0 ∨ ((relativeCumulativeFitness pop asc).length : ℤ) < n
    · simp only [randomUniqueIndices, if_pos h2] at h
      exact absurd h (by simp)
    · simp only [randomUniqueIndices, if_neg h2] at h
      cases hr : ruiLoop (relativeCumulativeFitness pop asc) n.toNat draws [] with
      | none => simp [hr] at h
      | some p =>
        obtain ⟨indices, rest2⟩ := p
        cases hm : mapOption (fun index => jsGetInt pop index) indices with
        | none => simp [hr, hm] at h
        | some sampled =>
          simp only [hr, hm, Except.ok.injEq, Option.some.injEq, Prod.mk.injEq] at h
          obtain ⟨rfl, rfl⟩ := h
          have hlast : (relativeCumulativeFitness pop asc).getLast? = some 1 :=
            (rcf_props V pop asc hpop).2.2
          have hlen := rcf_length V pop asc
          obtain ⟨hilen, hind, hibd⟩ :=
            ruiLoop_spec (relativeCumulativeFitness pop asc) hlast n.toNat draws [] indices
              rest2 hdraws (by simp) (by simp) (by simp) hr
          have hibd2 : ∀ i ∈ indices, 0 ≤ i ∧ i < (pop.length : ℤ) := by
            intro i hi
            have := hibd i hi
            rwa [hlen] at this
          have hmapped := mapOption_map _ indices sampled hm
          refine ⟨?_, indices, hind, hibd2, ?_⟩
          · have := congrArg List.length hmapped
            simp only [List.length_map] at this
            rw [← this, hilen]
          · rw [← hmapped]
            apply List.map_congr_left
            intro i hi
            rw [jsGetInt, if_pos (hibd2 i hi).1]

/-- Witness for C4: a singleton population sampled with one in-range draw. -/
theorem weightedSample_spec_witness :
    popW4.length = (1 : ℤ).toNat ∧
    ∃ idxs : List ℤ, idxs.Nodup ∧ (∀ i ∈ idxs, 0 ≤ i ∧ i < (popW4.length : ℤ)) ∧
      idxs.map (fun i => popW4.get? i.toNat) = popW4.map some :=
  weightedSample_spec Unit popW4 1 true [0] (by simp [popW4])
    (by norm_num) popW4 []
    (by norm_num [popW4, weightedSampleWithoutReplacement, relativeCumulativeFitness,
      shiftNonNegative, avoidZero, invertIfDescending, cumAux, randomUniqueIndices,
      ruiLoop, jsFindIndexGt, findIdxQ, jsGetInt, mapOption])

theorem stopCheck_iff_min (V : Type) (pop : List (Individual V)) (h : pop ≠ []) (sv : ℚ) :
    stopCheck pop (some sv) = .ok true ↔
      sv ∈ pop.map (·.fitness) ∧ ∀ x ∈ pop.map (·.fitness), sv ≤ x := by
  have hf : pop.map (·.fitness) ≠ [] := by simpa using h
  obtain ⟨m, hm⟩ : ∃ m, listMinQ (pop.map (·.fitness)) = some m := by
    cases hx : listMinQ (pop.map (·.fitness)) with
    | none => exact absurd ((listMinQ_eq_none _).1 hx) hf
    | some m => exact ⟨m, rfl⟩
  have hmem : m ∈ pop.map (·.fitness) := listMinQ_mem hm
  have hidx : (pop.map (·.fitness)).indexOf m < (pop.map (·.fitness)).length :=
    List.indexOf_lt_length.2 hmem
  have hlen : (pop.map (·.fitness)).length = pop.length := List.length_map _ _
  have hidx2 : (pop.map (·.fitness)).indexOf m < pop.length := by
    rw [← hlen]
    exact hidx
  have hfit : (pop.get ⟨(pop.map (·.fitness)).indexOf m, hidx2⟩).fitness = m := by
    have := List.indexOf_get (a := m) (l := pop.map (·.fitness)) hidx
    rw [List.get_map] at this
    exact this
  have hstep : stopCheck pop (some sv) = .ok (decide (some sv =
      some (pop.get ⟨(pop.map (·.fitness)).indexOf m, hidx2⟩).fitness)) := by
    rw [stopCheck]
    simp only [fittestIndividual, Bool.false_eq_true, if_false, hm,
      List.get?_eq_get hidx2]
  rw [hstep, hfit]
  constructor
  · intro he
    have : decide (some sv = some m) = true := by
      injection he
    have hsv : sv = m := by simpa using of_decide_eq_true this
    rw [hsv]
    exact ⟨hmem, listMinQ_le hm⟩
  · intro ⟨hsvmem, hsvle⟩
    have h1 : m ≤ sv := listMinQ_le hm sv hsvmem
    have h2 : sv ≤ m := hsvle m hmem
    have : sv = m := le_antisymm h2 h1
    rw [this]
    simp

/-- C10: calling `fittestIndividual` with the `ascending` argument omitted
(JS `undefined`, falsy) selects the individual with the minimum fitness, and
consequently the stop check of the evolution loop, which omits the argument,
compares the minimum fitness of the generation with the stop value. -/
theorem fittestIndividual_default_min (V : Type) (pop : List (Individual V))
    (h : pop ≠ []) (sv : ℚ) :
    (∃ i : Fin pop.length,
      fittestIndividual pop false = .ok (some (pop.get i)) ∧ IsFirstMinIndex pop i) ∧
    (stopCheck pop (some sv) = .ok true ↔
      sv ∈ pop.map (·.fitness) ∧ ∀ x ∈ pop.map (·.fitness), sv ≤ x) :=
  ⟨fittest_min_spec V pop h, stopCheck_iff_min V pop h sv⟩

/-- Witness for C10 on a concrete three-individual population. -/
theorem fittestIndividual_default_min_witness :
    (∃ i : Fin popW10.length,
      fittestIndividual popW10 false = .ok (some (popW10.get i)) ∧
      IsFirstMinIndex popW10 i) ∧
    (stopCheck popW10 (some 1) = .ok true ↔
      1 ∈ popW10.map (·.fitness) ∧ ∀ x ∈ popW10.map (·.fitness), 1 ≤ x) :=
  fittestIndividual_default_min Unit popW10 (by simp [popW10]) 1

/-- C1: `geneticAlgorithm` has no return statement; a terminating run
(here: the stop value is reached in generation zero) yields `undefined`
(modelled `Unit`), not a record of history and fittest individual. -/
theorem geneticAlgorithm_no_return_value :
    geneticAlgorithm c1Model (fun _ => ()) c1Config [] = .ok (some ()) := by
  rfl

theorem ruiLoop_done (weights : List ℚ) (n : ℕ) (draws : List ℚ) (indices : List ℤ)
    (h : n ≤ indices.length) : ruiLoop weights n draws indices = some (indices, draws) := by
  cases draws
  · rw [ruiLoop_nil, if_pos h]
  · rw [ruiLoop_cons, if_pos h]

theorem decide_none_eq_some (q : ℚ) : decide ((none : Option ℚ) = some q) = false := rfl

theorem c2_generation_step (g : ℕ) (hist : List (List (Individual Unit))) (rest : List ℚ) :
    gaLoop (fun _ _ => (0 : ℚ)) (fun _ _ => ()) (fun v _ => v) none (() : Unit) c2Config (g + 1)
      [(), ()] hist (1/4 :: 3/4 :: 1/4 :: 3/4 :: 1/4 :: 3/4 :: rest) =
      gaLoop (fun _ _ => (0 : ℚ)) (fun _ _ => ()) (fun v _ => v) none () c2Config g
      [(), ()] (hist ++ [[⟨(), 0⟩, ⟨(), 0⟩]]) rest := by
  norm_num [gaLoop, c2Config, evaluateFitness, stopCheck, fittestIndividual, listMinQ,
    weightedSampleWithoutReplacement, relativeCumulativeFitness, shiftNonNegative, avoidZero,
    invertIfDescending, cumAux, randomUniqueIndices, ruiLoop, jsFindIndexGt, findIdxQ,
    jsGetInt, mapOption, crossover, crossoverLoop, mutate, List.indexOf_cons_self,
    ruiLoop_done, decide_none_eq_some, Int.toNat_ofNat, Int.toNat_zero, Int.toNat_one]

/-- C2: the evolution loop never consults the model stop predicate
(`stop_function`): its result is invariant under replacing that field, because
genetic.js destructures only `stop_value` from the model; and a concrete run
whose stop predicate demands an immediate stop still executes both configured
generations and never exits through the stop check. -/
theorem geneticAlgorithm_ignores_stop_function :
    (∀ (V W : Type) (model : GAModel V W) (f : ℚ → Bool) (cfg : GAConfig)
      (draws : List ℚ),
      geneticAlgorithmRun
        (GAModel.mk model.creation_function model.fitness_function
          model.crossover_function model.mutation_function f model.stop_value
          model.target_value) cfg draws =
        geneticAlgorithmRun model cfg draws) ∧
    (geneticAlgorithmRun c2Model c2Config c2Draws).map
      (Option.map fun state => (state.1.length, state.2)) = .ok (some (2, false)) := by
  constructor
  · intro V W model f cfg draws
    rfl
  · have step1 := c2_generation_step 1 [] [1/4, 3/4, 1/4, 3/4, 1/4, 3/4]
    have step2 := c2_generation_step 0 [[⟨(), 0⟩, ⟨(), 0⟩]] []
    have hrun : geneticAlgorithmRun c2Model c2Config c2Draws =
        .ok (some ([[⟨(), 0⟩, ⟨(), 0⟩], [⟨(), 0⟩, ⟨(), 0⟩]], false)) := by
      calc geneticAlgorithmRun c2Model c2Config c2Draws
          = gaLoop (fun _ _ => (0 : ℚ)) (fun _ _ => ()) (fun v _ => v) none () c2Config 2
            [(), ()] [] c2Draws := rfl
        _ = gaLoop (fun _ _ => (0 : ℚ)) (fun _ _ => ()) (fun v _ => v) none () c2Config 1
            [(), ()] [[⟨(), 0⟩, ⟨(), 0⟩]] [1/4, 3/4, 1/4, 3/4, 1/4, 3/4] := step1
        _ = gaLoop (fun _ _ => (0 : ℚ)) (fun _ _ => ()) (fun v _ => v) none () c2Config 0
            [(), ()] [[⟨(), 0⟩, ⟨(), 0⟩], [⟨(), 0⟩, ⟨(), 0⟩]] [] := step2
        _ = .ok (some ([[⟨(), 0⟩, ⟨(), 0⟩], [⟨(), 0⟩, ⟨(), 0⟩]], false)) := rfl
    rw [hrun]
    rfl
